import Mathlib

/-!
# Verification of the app-log-service core

Shallow embedding of the core of the `app-log-service` repository
(`server/src/models.rs`, `server/src/buffer.rs`, `server/src/request_manager.rs`,
`server/src/handlers.rs`) together with proofs of the specified properties.

Modelling conventions:
* `chrono::DateTime<Utc>` timestamps are modelled as `Int` (seconds);
  `chrono::Duration::hours`/`days` become multiplication by 3600/86400.
* `uuid::Uuid` identifiers are modelled as `Nat`; `Uuid::new_v4()` is an
  oracle, so freshly generated ids are passed in as explicit parameters.
* Rust `String` keys and paths are Lean `String`s; the severity-level
  strings handled by `LogLevel::from_str` are modelled as `List Char`
  (Rust's `str::to_lowercase`, restricted to the ASCII names involved,
  becomes a `List.map` of an ASCII char lowering).
* `HashMap<String, LogRequest>` is modelled as an association list with
  functional insert; the hash map's distinct-keys invariant is the
  predicate `WFMap`.
* Interior mutability (`RwLock`) disappears: every operation takes the
  state and returns the new state.  `Utc::now()` becomes a `now` parameter.
* The `tokio::sync::broadcast` fan-out channel, logging, and serialization
  are external side effects with no influence on the stored state and are
  not modelled.  The external `Storage` collaborator used by
  `handle_upload` is modelled by a boolean outcome parameter.
* A Rust panic (out-of-bounds `Vec` index / remainder by zero) is modelled
  by returning `none`.
-/

/-- Severity levels from `models.rs` (`enum LogLevel`), with the
discriminants `Trace = 0, …, Critical = 6` exposed by `rank`. -/
inductive LogLevel
  | Trace
  | Debug
  | Info
  | Notice
  | Warning
  | Error
  | Critical
deriving DecidableEq, Repr

/-- The numeric discriminant of a `LogLevel`; Rust's `#[derive(PartialOrd, Ord)]`
orders the enum by exactly this value. -/
def LogLevel.rank : LogLevel → Nat
  | .Trace => 0
  | .Debug => 1
  | .Info => 2
  | .Notice => 3
  | .Warning => 4
  | .Error => 5
  | .Critical => 6

/-- ASCII char lowering: the effect of Rust `str::to_lowercase` on the
characters appearing in severity names (`'A'..='Z'` ↦ `+32`). -/
def asciiLower (c : Char) : Char :=
  if 65 ≤ c.toNat ∧ c.toNat ≤ 90 then Char.ofNat (c.toNat + 32) else c

/-- `s.to_lowercase()` on a severity-name string, as a `List Char` map. -/
def toLowercase (s : List Char) : List Char :=
  s.map asciiLower

/-- `LogLevel::from_str` from `models.rs`: lowercase the input, match the
seven known names, and default to `Info`. -/
def LogLevel.from_str (s : List Char) : LogLevel :=
  let t := toLowercase s
  if t = "trace".toList then .Trace
  else if t = "debug".toList then .Debug
  else if t = "info".toList then .Info
  else if t = "notice".toList then .Notice
  else if t = "warning".toList then .Warning
  else if t = "error".toList then .Error
  else if t = "critical".toList then .Critical
  else .Info

/-- `LogLevel::as_str` from `models.rs`. -/
def LogLevel.as_str : LogLevel → List Char
  | .Trace => "trace".toList
  | .Debug => "debug".toList
  | .Info => "info".toList
  | .Notice => "notice".toList
  | .Warning => "warning".toList
  | .Error => "error".toList
  | .Critical => "critical".toList

/-- `chrono::Duration::hours`, in seconds. -/
def Duration.hours (h : Int) : Int := h * 3600

/-- `chrono::Duration::days`, in seconds. -/
def Duration.days (d : Int) : Int := d * 86400

/-- `LogEntry` from `models.rs`.  Field types are simplified carriers
(`Int` timestamp, association list metadata); the buffer never inspects
these fields. -/
structure LogEntry where
  id : String
  timestamp : Int
  level : String
  message : String
  user_id : Option String
  device_id : String
  source : String
  metadata : List (String × String)
  tags : List String
  file : String
  function : String
  line : Nat
deriving DecidableEq, Repr

/-- `LogRequestStatus` from `models.rs`. -/
inductive LogRequestStatus
  | Pending
  | Fulfilled
  | Expired
  | Cancelled
deriving DecidableEq, Repr

/-- `LogRequest` from `models.rs`. -/
structure LogRequest where
  id : Nat
  user_id : Nat
  device_id : String
  requested_at : Int
  expires_at : Int
  status : LogRequestStatus
  fulfilled_at : Option Int
  log_file_path : Option String
deriving DecidableEq, Repr

/-- `RequestError` from `request_manager.rs`. -/
inductive RequestError
  | NotFound
  | AlreadyProcessed
deriving DecidableEq, Repr

/-- The `HashMap<String, LogRequest>` held by `RequestManager`, as an
association list keyed by device id. -/
abbrev RMap := List (String × LogRequest)

/-- `requests.get(device_id)` — first binding for the key. -/
def getReq (m : RMap) (d : String) : Option LogRequest :=
  (m.find? (fun p => p.1 == d)).map Prod.snd

/-- `requests.insert(device_id, request)` — replace any binding for the key. -/
def insertReq (m : RMap) (d : String) (r : LogRequest) : RMap :=
  (d, r) :: m.filter (fun p => p.1 != d)

/-- The hash-map invariant: device keys are pairwise distinct. -/
abbrev WFMap (m : RMap) : Prop :=
  (m.map Prod.fst).Nodup

/-- The request record built by `RequestManager::create_request`
(`id` is the fresh `Uuid::new_v4()`, expiry is `now + 24h`). -/
def mkLogRequest (newId : Nat) (uid : Nat) (d : String) (now : Int) : LogRequest :=
  { id := newId
    user_id := uid
    device_id := d
    requested_at := now
    expires_at := now + Duration.hours 24
    status := .Pending
    fulfilled_at := none
    log_file_path := none }

/-- `RequestManager::create_request`: build a fresh Pending request and
insert it under the device key (the existing-entry check in the source
only logs).  Returns the request and the new map. -/
def create_request (m : RMap) (newId : Nat) (now : Int) (uid : Nat) (d : String) :
    LogRequest × RMap :=
  let r := mkLogRequest newId uid d now
  (r, insertReq m d r)

/-- `RequestManager::get_pending`: look up the device's request; if it is
Pending but past expiry, store it back as Expired and report none; return
it only while still Pending. -/
def get_pending (m : RMap) (now : Int) (d : String) : Option LogRequest × RMap :=
  match getReq m d with
  | none => (none, m)
  | some r =>
    if r.status = .Pending ∧ now > r.expires_at then
      (none, insertReq m d { r with status := .Expired })
    else if r.status = .Pending then
      (some r, m)
    else
      (none, m)

/-- `RequestManager::fulfill`: scan for the request with the given id,
then re-fetch it by device key; fail if absent or no longer Pending,
otherwise stamp status/fulfillment time/path. -/
def fulfill (m : RMap) (now : Int) (rid : Nat) (path : String) :
    Except RequestError RMap :=
  match m.find? (fun p => p.2.id == rid) with
  | none => .error .NotFound
  | some (d, _) =>
    match getReq m d with
    | none => .error .NotFound
    | some r =>
      if r.status ≠ .Pending then .error .AlreadyProcessed
      else .ok (insertReq m d { r with status := .Fulfilled, fulfilled_at := some now, log_file_path := some path })

/-- `RequestManager::cancel`. -/
def cancel (m : RMap) (d : String) : Except RequestError RMap :=
  match getReq m d with
  | none => .error .NotFound
  | some r =>
    if r.status ≠ .Pending then .error .AlreadyProcessed
    else .ok (insertReq m d { r with status := .Cancelled })

/-- The marking pass of `RequestManager::cleanup_expired`: a Pending
request past expiry becomes Expired. -/
def markExpired (now : Int) (r : LogRequest) : LogRequest :=
  if r.status = .Pending ∧ now > r.expires_at then { r with status := .Expired } else r

/-- The retention predicate of `cleanup_expired`'s `retain` call:
keep Pending requests and anything created after `now - 7 days`. -/
def keepAfterSweep (now : Int) (r : LogRequest) : Bool :=
  r.status = .Pending ∨ r.requested_at > now - Duration.days 7

/-- `RequestManager::cleanup_expired`: mark expired Pending entries, drop
non-Pending entries older than the 7-day retention window, and return the
number of removed entries together with the new map. -/
def cleanup_expired (m : RMap) (now : Int) : Nat × RMap :=
  let marked := m.map (fun p => (p.1, markExpired now p.2))
  let kept := marked.filter (fun p => keepAfterSweep now p.2)
  (m.length - kept.length, kept)

/-- `BufferInner` from `buffer.rs`: the state behind `LogBuffer`'s lock.
`entries` is the physical `Vec`, `start_index` the ring start, `count`
the number of stored entries. -/
structure BufferInner where
  entries : List LogEntry
  capacity : Nat
  start_index : Nat
  count : Nat
  min_level : LogLevel
  source_filter : Option (List String)
deriving DecidableEq, Repr

/-- `LogBuffer::new` (the broadcast channel is external and not modelled). -/
def LogBuffer.new (capacity : Nat) : BufferInner :=
  { entries := []
    capacity := capacity
    start_index := 0
    count := 0
    min_level := .Trace
    source_filter := none }

/-- `LogBuffer::append`.  Below capacity: push.  At capacity: overwrite the
slot at `start_index` and advance it modulo `capacity`.  `none` models the
panics of the source on unreachable states (`entries[idx]` out of bounds,
`% 0`). -/
def LogBuffer.append (b : BufferInner) (e : LogEntry) : Option BufferInner :=
  if b.count < b.capacity then
    some { b with entries := b.entries ++ [e], count := b.count + 1 }
  else if b.start_index < b.entries.length ∧ 0 < b.capacity then
    some { b with entries := b.entries.set b.start_index e,
                  start_index := (b.start_index + 1) % b.capacity }
  else
    none

/-- `LogBuffer::get_all`: below capacity the `Vec` is already
chronological; at capacity rotate at `start_index`. -/
def LogBuffer.get_all (b : BufferInner) : List LogEntry :=
  if b.count < b.capacity then b.entries
  else b.entries.drop b.start_index ++ b.entries.take b.start_index

/-- `LogBuffer::clear`. -/
def LogBuffer.clear (b : BufferInner) : BufferInner :=
  { b with entries := [], start_index := 0, count := 0 }

/-- A whole sequence of `append` calls (propagating a panic as `none`). -/
def LogBuffer.appendAll (b : BufferInner) (es : List LogEntry) : Option BufferInner :=
  es.foldlM LogBuffer.append b

/-- States of `BufferInner` reachable through the `LogBuffer` API:
`count` is the number of stored entries, it never exceeds capacity, the
ring start is 0 until the buffer fills, and stays below capacity. -/
def LogBuffer.WF (b : BufferInner) : Prop :=
  b.count = b.entries.length ∧
  b.count ≤ b.capacity ∧
  (b.count < b.capacity → b.start_index = 0) ∧
  (0 < b.capacity → b.start_index < b.capacity)

/-- `LogPollResponse` from `models.rs` (timestamps kept as instants; the
`to_rfc3339` rendering is not modelled). -/
structure LogPollResponse where
  request_id : Nat
  requested_at : Int
  expires_at : Int
deriving DecidableEq, Repr

/-- Outcome of `handle_poll`: the `FORBIDDEN` early return, or
`Json<Option<LogPollResponse>>`. -/
inductive PollResult
  | forbidden
  | ok (resp : Option LogPollResponse)
deriving DecidableEq, Repr

/-- Outcome of `handle_upload`: `CREATED` or one of its error returns,
one constructor per distinct `(StatusCode, message)` site in the source. -/
inductive UploadResult
  | created
  | badRequestInvalidId
  | badRequestMismatch
  | forbidden
  | notFound
  | serverErrorStorage
  | serverErrorFulfill
deriving DecidableEq, Repr

/-- The HTTP status code of each `handle_upload` outcome. -/
def UploadResult.statusCode : UploadResult → Nat
  | .created => 201
  | .badRequestInvalidId => 400
  | .badRequestMismatch => 400
  | .forbidden => 403
  | .notFound => 404
  | .serverErrorStorage => 500
  | .serverErrorFulfill => 500

/-- `handle_poll` from `handlers.rs`: fetch the device's pending request,
reject with `FORBIDDEN` if it belongs to another user, otherwise return
its descriptor (or `None` when nothing is pending).  Returns the response
together with the request-manager state. -/
def handle_poll (m : RMap) (now : Int) (authUserId : Nat) (deviceId : String) :
    PollResult × RMap :=
  let res := get_pending m now deviceId
  match res.1 with
  | some request =>
    if request.user_id ≠ authUserId then (.forbidden, res.2)
    else (.ok (some { request_id := request.id,
                      requested_at := request.requested_at,
                      expires_at := request.expires_at }), res.2)
  | none => (.ok none, res.2)

/-- The `format!("{}/{}/{}.jsonl", user_id, device_id, request_id)` path. -/
def uploadPath (uid : Nat) (deviceId : String) (rid : Nat) : String :=
  toString uid ++ "/" ++ deviceId ++ "/" ++ toString rid ++ ".jsonl"

/-- `handle_upload` from `handlers.rs`.  `parsedId` is the result of
`Uuid::parse_str` on the body's request id; `storageOk` is the outcome of
the external `storage.save_upload` call.  Re-reads the device's pending
request, checks id match then ownership, persists, and only then fulfills. -/
def handle_upload (m : RMap) (now : Int) (authUserId : Nat) (parsedId : Option Nat)
    (deviceId : String) (storageOk : Bool) : UploadResult × RMap :=
  match parsedId with
  | none => (.badRequestInvalidId, m)
  | some rid =>
    let res := get_pending m now deviceId
    match res.1 with
    | some request =>
      if request.id ≠ rid then (.badRequestMismatch, res.2)
      else if request.user_id ≠ authUserId then (.forbidden, res.2)
      else if storageOk then
        match fulfill res.2 now rid (uploadPath authUserId deviceId rid) with
        | .error _ => (.serverErrorFulfill, res.2)
        | .ok m2 => (.created, m2)
      else (.serverErrorStorage, res.2)
    | none => (.notFound, res.2)

/-! ## Association-list map lemmas -/

theorem getReq_nil (d : String) : getReq [] d = none := rfl

theorem getReq_cons (k : String) (v : LogRequest) (m : RMap) (d : String) :
    getReq ((k, v) :: m) d = if k = d then some v else getReq m d := by
  by_cases h : k = d <;> simp [getReq, List.find?_cons, h]

theorem getReq_insertReq_self (m : RMap) (d : String) (r : LogRequest) :
    getReq (insertReq m d r) d = some r := by
  simp [insertReq, getReq_cons]

theorem getReq_filter_ne (m : RMap) (d d' : String) (h : d' ≠ d) :
    getReq (m.filter (fun p => p.1 != d)) d' = getReq m d' := by
  induction m with
  | nil => rfl
  | cons p m ih =>
    by_cases hk : p.1 = d
    · have : (p.1 != d) = false := by simp [hk]
      rw [show ((p :: m).filter (fun p => p.1 != d)) = m.filter (fun p => p.1 != d) by
        simp [List.filter_cons, this]]
      rw [ih]
      obtain ⟨k, v⟩ := p
      rw [getReq_cons]
      simp only at hk
      simp [hk, h.symm]
    · have : (p.1 != d) = true := by simp [hk]
      rw [show ((p :: m).filter (fun p => p.1 != d)) = p :: m.filter (fun p => p.1 != d) by
        simp [List.filter_cons, this]]
      obtain ⟨k, v⟩ := p
      rw [getReq_cons, getReq_cons, ih]

theorem getReq_insertReq_ne (m : RMap) (d d' : String) (r : LogRequest) (h : d' ≠ d) :
    getReq (insertReq m d r) d' = getReq m d' := by
  rw [insertReq, getReq_cons, if_neg (fun hh => h hh.symm), getReq_filter_ne m d d' h]

theorem WFMap_nil : WFMap [] := by simp [WFMap]

theorem WFMap_insertReq (m : RMap) (d : String) (r : LogRequest) (h : WFMap m) :
    WFMap (insertReq m d r) := by
  unfold WFMap insertReq
  simp only [List.map_cons, List.nodup_cons]
  constructor
  · intro hmem
    obtain ⟨p, hp, hk⟩ := List.mem_map.mp hmem
    have := List.of_mem_filter hp
    simp [hk] at this
  · exact h.sublist (List.Sublist.map Prod.fst (List.filter_sublist m))

theorem mem_of_getReq (m : RMap) (d : String) (r : LogRequest)
    (h : getReq m d = some r) : (d, r) ∈ m := by
  unfold getReq at h
  obtain ⟨p, hfind, hmap⟩ := Option.map_eq_some'.mp h
  have hmem := List.mem_of_find?_eq_some hfind
  have hpred := List.find?_some hfind
  obtain ⟨k, v⟩ := p
  simp only at hmap hpred
  have : k = d := by simpa using hpred
  subst this; subst hmap; exact hmem

theorem getReq_mem (m : RMap) (d : String) (r : LogRequest)
    (hwf : WFMap m) (h : (d, r) ∈ m) : getReq m d = some r := by
  induction m with
  | nil => cases h
  | cons p m ih =>
    obtain ⟨k, v⟩ := p
    rw [getReq_cons]
    rcases List.mem_cons.mp h with heq | hmem
    · obtain ⟨h1, h2⟩ := Prod.mk.injEq .. ▸ heq
      cases heq
      simp
    · have hk : k ≠ d := by
        intro hkd; subst hkd
        have : k ∈ m.map Prod.fst := List.mem_map.mpr ⟨(k, r), hmem, rfl⟩
        exact (List.nodup_cons.mp hwf).1 this
      rw [if_neg hk]
      exact ih (List.nodup_cons.mp hwf).2 hmem

theorem getReq_eq_none (m : RMap) (d : String)
    (h : ∀ p ∈ m, p.1 ≠ d) : getReq m d = none := by
  unfold getReq
  rw [List.find?_eq_none.mpr]
  · rfl
  · intro p hp
    simpa using h p hp

theorem WFMap_cons (p : String × LogRequest) (m : RMap) (h : WFMap (p :: m)) : WFMap m :=
  (List.nodup_cons.mp h).2

theorem getReq_mapFilter (f : LogRequest → LogRequest) (g : LogRequest → Bool)
    (m : RMap) (d : String) (hwf : WFMap m) :
    getReq ((m.map (fun p => (p.1, f p.2))).filter (fun p => g p.2)) d
      = (getReq m d).bind (fun r => if g (f r) then some (f r) else none) := by
  induction m with
  | nil => rfl
  | cons p m ih =>
    obtain ⟨k, v⟩ := p
    have hnd : k ∉ m.map Prod.fst := (List.nodup_cons.mp hwf).1
    have htl := ih (WFMap_cons _ _ hwf)
    simp only [List.map_cons, List.filter_cons]
    by_cases hg : g (f v)
    · rw [if_pos (by simpa using hg), getReq_cons, getReq_cons]
      by_cases hk : k = d
      · simp [hk, hg]
      · simp only [if_neg hk]; exact htl
    · rw [if_neg (by simpa using hg), getReq_cons]
      by_cases hk : k = d
      · subst hk
        rw [if_pos rfl]
        simp only [Option.some_bind, if_neg hg]
        apply getReq_eq_none
        intro q hq
        have hq2 := List.mem_of_mem_filter hq
        obtain ⟨q0, hq0, hq0eq⟩ := List.mem_map.mp hq2
        intro hqd
        apply hnd
        subst hq0eq
        simp only at hqd
        subst hqd
        exact List.mem_map.mpr ⟨q0, hq0, rfl⟩
      · rw [if_neg hk]; exact htl

/-! ## `get_pending` characterisation -/

theorem get_pending_fst_some (m : RMap) (now : Int) (d : String) (r : LogRequest) :
    (get_pending m now d).1 = some r ↔
      getReq m d = some r ∧ r.status = .Pending ∧ ¬ now > r.expires_at := by
  unfold get_pending
  cases hg : getReq m d with
  | none => simp
  | some r0 =>
    by_cases h1 : r0.status = .Pending ∧ now > r0.expires_at
    · simp only [if_pos h1]
      constructor
      · intro h; cases h
      · rintro ⟨hr, hs, he⟩
        cases hr
        exact absurd h1.2 he
    · simp only [if_neg h1]
      by_cases h2 : r0.status = .Pending
      · simp only [if_pos h2]
        constructor
        · rintro h
          cases h
          exact ⟨rfl, h2, fun hgt => h1 ⟨h2, hgt⟩⟩
        · rintro ⟨hr, _, _⟩; cases hr; rfl
      · simp only [if_neg h2]
        constructor
        · intro h; cases h
        · rintro ⟨hr, hs, _⟩; cases hr; exact absurd hs h2

theorem get_pending_of_getReq_some (m : RMap) (now : Int) (d : String) (r : LogRequest)
    (hg : getReq m d = some r) :
    get_pending m now d =
      if r.status = .Pending ∧ now > r.expires_at then
        (none, insertReq m d { r with status := .Expired })
      else if r.status = .Pending then (some r, m) else (none, m) := by
  unfold get_pending
  rw [hg]

theorem get_pending_snd_of_some (m : RMap) (now : Int) (d : String) (r : LogRequest)
    (h : (get_pending m now d).1 = some r) : (get_pending m now d).2 = m := by
  rw [get_pending_fst_some] at h
  obtain ⟨hg, hs, he⟩ := h
  rw [get_pending_of_getReq_some m now d r hg, if_neg (fun hh => he hh.2), if_pos hs]

theorem get_pending_expired_case (m : RMap) (now : Int) (d : String) (r : LogRequest)
    (hg : getReq m d = some r) (hs : r.status = .Pending) (he : now > r.expires_at) :
    get_pending m now d = (none, insertReq m d { r with status := .Expired }) := by
  rw [get_pending_of_getReq_some m now d r hg, if_pos ⟨hs, he⟩]

/-! ## Sample data for concrete witnesses -/

/-- A concrete pending request (id 1, user 7, device "dev-A", created at 0,
expiring at 86400). -/
def sampleReq : LogRequest := mkLogRequest 1 7 "dev-A" 0

/-- A one-entry request map holding `sampleReq`. -/
def sampleMap : RMap := [("dev-A", sampleReq)]

/-- C3: for every device id, `get_pending` returns the stored request only
when it is Pending and its expiry has not passed; a stored Pending entry
whose expiry has passed is transitioned to Expired as a side effect and
none is returned; a request whose expiry timestamp is in the past is never
returned. -/
theorem get_pending_spec :
    ∀ (m : RMap) (now : Int) (d : String),
      (∀ r, (get_pending m now d).1 = some r →
        getReq m d = some r ∧ r.status = .Pending ∧ ¬ now > r.expires_at) ∧
      (∀ r, getReq m d = some r → r.status = .Pending → now > r.expires_at →
        (get_pending m now d).1 = none ∧
        getReq (get_pending m now d).2 d = some { r with status := .Expired }) ∧
      (∀ r, (get_pending m now d).1 = some r → ¬ r.expires_at < now) := by
  intro m now d
  refine ⟨?_, ?_, ?_⟩
  · intro r h
    exact (get_pending_fst_some m now d r).mp h
  · intro r hg hs he
    rw [get_pending_expired_case m now d r hg hs he]
    exact ⟨rfl, getReq_insertReq_self ..⟩
  · intro r h
    exact ((get_pending_fst_some m now d r).mp h).2.2

/-- Witness for C3: the expired-entry branch on a concrete map. -/
theorem get_pending_spec_witness :
    (get_pending sampleMap 200000 "dev-A").1 = none ∧
      getReq (get_pending sampleMap 200000 "dev-A").2 "dev-A" =
        some { sampleReq with status := LogRequestStatus.Expired } :=
  (get_pending_spec sampleMap 200000 "dev-A").2.1 sampleReq (by decide) (by decide)
    (by decide)

/-- C4: `create_request` always succeeds, producing a fresh Pending request
carrying the supplied fresh id with expiry `now + 24h`, stored under the
device key regardless of what was there; after a second create for the same
device, `get_pending` can only ever report the second request's id. -/
theorem create_request_spec :
    ∀ (m : RMap) (newId : Nat) (now : Int) (uid : Nat) (d : String),
      (create_request m newId now uid d).1.status = .Pending ∧
      (create_request m newId now uid d).1.id = newId ∧
      (create_request m newId now uid d).1.user_id = uid ∧
      (create_request m newId now uid d).1.device_id = d ∧
      (create_request m newId now uid d).1.requested_at = now ∧
      (create_request m newId now uid d).1.expires_at = now + Duration.hours 24 ∧
      getReq (create_request m newId now uid d).2 d =
        some (create_request m newId now uid d).1 ∧
      (∀ newId2 now2 uid2 t r,
        (get_pending
            (create_request (create_request m newId now uid d).2 newId2 now2 uid2 d).2
            t d).1 = some r →
        r.id = newId2) := by
  intro m newId now uid d
  refine ⟨rfl, rfl, rfl, rfl, rfl, rfl, getReq_insertReq_self .., ?_⟩
  intro newId2 now2 uid2 t r h
  have hg := ((get_pending_fst_some _ t d r).mp h).1
  rw [show (create_request (create_request m newId now uid d).2 newId2 now2 uid2 d).2
        = insertReq (create_request m newId now uid d).2 d
            (mkLogRequest newId2 uid2 d now2) from rfl,
      getReq_insertReq_self] at hg
  have : mkLogRequest newId2 uid2 d now2 = r := by injection hg
  subst this
  rfl

/-- Witness for C4: two successive creates on a concrete map; `get_pending`
reports only the second id. -/
theorem create_request_spec_witness :
    (mkLogRequest 2 7 "dev-A" 0).id = 2 :=
  (create_request_spec [] 1 0 7 "dev-A").2.2.2.2.2.2.2 2 0 7 0
    (mkLogRequest 2 7 "dev-A" 0) (by decide)

/-! ## `fulfill` -/

theorem fulfill_eq_of_find (m : RMap) (now : Int) (rid : Nat) (path : String)
    (d : String) (r0 r : LogRequest)
    (hfind : m.find? (fun p => p.2.id == rid) = some (d, r0))
    (hget : getReq m d = some r) :
    fulfill m now rid path =
      if r.status ≠ .Pending then .error .AlreadyProcessed
      else .ok (insertReq m d { r with status := .Fulfilled, fulfilled_at := some now, log_file_path := some path }) := by
  unfold fulfill
  rw [hfind]
  dsimp only
  rw [hget]

/-- C5: `fulfill` fails with `NotFound` when no stored request has the id,
fails with `AlreadyProcessed` when the located request is not Pending, and
otherwise transitions it to Fulfilled stamping the fulfillment time and
path; a second `fulfill` on the same id then fails, and `get_pending` for
that device subsequently returns none. -/
theorem fulfill_spec :
    ∀ (m : RMap) (now : Int) (rid : Nat) (path : String),
      ((∀ p ∈ m, p.2.id ≠ rid) → fulfill m now rid path = .error .NotFound) ∧
      (∀ d r, WFMap m → m.find? (fun p => p.2.id == rid) = some (d, r) →
        (r.status ≠ .Pending → fulfill m now rid path = .error .AlreadyProcessed) ∧
        (r.status = .Pending → ∃ m', fulfill m now rid path = .ok m' ∧
          getReq m' d = some { r with status := .Fulfilled, fulfilled_at := some now, log_file_path := some path } ∧
          (∀ now2 path2, fulfill m' now2 rid path2 = .error .AlreadyProcessed) ∧
          (∀ t, (get_pending m' t d).1 = none))) := by
  intro m now rid path
  constructor
  · intro h
    unfold fulfill
    rw [List.find?_eq_none.mpr]
    intro p hp
    simpa using h p hp
  · intro d r hwf hfind
    have hmem := List.mem_of_find?_eq_some hfind
    have hget : getReq m d = some r := getReq_mem m d r hwf hmem
    have hrid : r.id = rid := by simpa using List.find?_some hfind
    constructor
    · intro hnp
      rw [fulfill_eq_of_find m now rid path d r r hfind hget, if_pos hnp]
    · intro hp
      refine ⟨insertReq m d { r with status := .Fulfilled, fulfilled_at := some now, log_file_path := some path },
        ?_, ?_, ?_, ?_⟩
      · rw [fulfill_eq_of_find m now rid path d r r hfind hget,
          if_neg (fun hh => hh hp)]
      · exact getReq_insertReq_self ..
      · intro now2 path2
        have hfind2 : (insertReq m d { r with status := .Fulfilled, fulfilled_at := some now, log_file_path := some path }).find?
              (fun p => p.2.id == rid) = some (d, _) :=
          List.find?_cons_of_pos _ (by simpa using hrid)
        rw [fulfill_eq_of_find _ now2 rid path2 d _ _ hfind2 (getReq_insertReq_self ..)]
        simp
      · intro t
        rw [get_pending_of_getReq_some _ t d _ (getReq_insertReq_self ..)]
        simp

/-- Witness for C5: a successful fulfillment on a concrete map, with the
follow-up calls failing / empty. -/
theorem fulfill_spec_witness :
    ∃ m', fulfill sampleMap 50 1 "p" = .ok m' ∧
      getReq m' "dev-A" = some { sampleReq with status := .Fulfilled, fulfilled_at := some 50, log_file_path := some "p" } ∧
      (∀ now2 path2, fulfill m' now2 1 path2 = .error .AlreadyProcessed) ∧
      (∀ t, (get_pending m' t "dev-A").1 = none) :=
  ((fulfill_spec sampleMap 50 1 "p").2 "dev-A" sampleReq (by decide) (by decide)).2
    (by decide)

/-! ## `cleanup_expired` -/

theorem getReq_cleanup (m : RMap) (now : Int) (d : String) (hwf : WFMap m) :
    getReq (cleanup_expired m now).2 d =
      (getReq m d).bind (fun r =>
        if keepAfterSweep now (markExpired now r) then some (markExpired now r)
        else none) :=
  getReq_mapFilter (markExpired now) (keepAfterSweep now) m d hwf

/-- C6: `cleanup_expired` marks every Pending entry past expiry as Expired,
removes every non-Pending entry created at or before the 7-day retention
cutoff while keeping every other entry unchanged (no entry that is still
Pending after the marking pass is removed), and returns exactly the number
of removed entries. -/
theorem cleanup_expired_spec :
    ∀ (m : RMap) (now : Int), WFMap m →
      (∀ d r, getReq m d = some r → r.status = .Pending → now > r.expires_at →
        getReq (cleanup_expired m now).2 d =
          (if r.requested_at > now - Duration.days 7
           then some { r with status := .Expired } else none)) ∧
      (∀ d r, getReq m d = some r → r.status = .Pending → ¬ now > r.expires_at →
        getReq (cleanup_expired m now).2 d = some r) ∧
      (∀ d r, getReq m d = some r → r.status ≠ .Pending →
          r.requested_at ≤ now - Duration.days 7 →
        getReq (cleanup_expired m now).2 d = none) ∧
      (∀ d r, getReq m d = some r → r.status ≠ .Pending →
          r.requested_at > now - Duration.days 7 →
        getReq (cleanup_expired m now).2 d = some r) ∧
      (cleanup_expired m now).2.length ≤ m.length ∧
      (cleanup_expired m now).1 = m.length - (cleanup_expired m now).2.length := by
  intro m now hwf
  refine ⟨?_, ?_, ?_, ?_, ?_, ?_⟩
  · intro d r hg hs he
    rw [getReq_cleanup m now d hwf, hg]
    have hm : markExpired now r = { r with status := .Expired } := by
      rw [markExpired, if_pos ⟨hs, he⟩]
    rw [Option.some_bind, hm]
    by_cases hk : r.requested_at > now - Duration.days 7
    · rw [if_pos (by simp [keepAfterSweep, hk]), if_pos hk]
    · rw [if_neg (by simp [keepAfterSweep, hk]), if_neg hk]
  · intro d r hg hs he
    rw [getReq_cleanup m now d hwf, hg]
    have hm : markExpired now r = r := by
      rw [markExpired, if_neg (fun hh => he hh.2)]
    rw [Option.some_bind, hm, if_pos (by simp [keepAfterSweep, hs])]
  · intro d r hg hs hold
    rw [getReq_cleanup m now d hwf, hg]
    have hm : markExpired now r = r := by
      rw [markExpired, if_neg (fun hh => hs hh.1)]
    rw [Option.some_bind, hm, if_neg (by simp [keepAfterSweep, hs]; omega)]
  · intro d r hg hs hnew
    rw [getReq_cleanup m now d hwf, hg]
    have hm : markExpired now r = r := by
      rw [markExpired, if_neg (fun hh => hs hh.1)]
    rw [Option.some_bind, hm, if_pos (by simp [keepAfterSweep, hnew])]
  · calc (cleanup_expired m now).2.length
        ≤ (m.map (fun p => (p.1, markExpired now p.2))).length :=
          List.length_filter_le _ _
      _ = m.length := List.length_map _ _
  · rfl

/-- Witness for C6: sweeping a concrete map with one stale Fulfilled entry
and one fresh Pending entry. -/
theorem cleanup_expired_spec_witness :
    getReq (cleanup_expired [("dev-B", { sampleReq with status := LogRequestStatus.Fulfilled, requested_at := -1000000 })] 0).2 "dev-B" = none :=
  ((cleanup_expired_spec [("dev-B", { sampleReq with status := LogRequestStatus.Fulfilled, requested_at := -1000000 })] 0 (by decide)).2.2.1)
    "dev-B" { sampleReq with status := LogRequestStatus.Fulfilled, requested_at := -1000000 }
    (by decide) (by decide) (by decide)

/-! ## Handlers -/

theorem handle_poll_eq_of_pending (m : RMap) (now : Int) (u : Nat) (d : String)
    (r : LogRequest) (h : (get_pending m now d).1 = some r) :
    handle_poll m now u d =
      if r.user_id ≠ u then (.forbidden, (get_pending m now d).2)
      else (.ok (some { request_id := r.id, requested_at := r.requested_at, expires_at := r.expires_at }),
            (get_pending m now d).2) := by
  unfold handle_poll
  dsimp only
  rw [h]

theorem handle_poll_eq_of_none (m : RMap) (now : Int) (u : Nat) (d : String)
    (h : (get_pending m now d).1 = none) :
    handle_poll m now u d = (.ok none, (get_pending m now d).2) := by
  unfold handle_poll
  dsimp only
  rw [h]

/-- C9: polling for a device whose pending request belongs to another user
is rejected with the bare forbidden response; polling by the owner returns
the descriptor with the request id, creation timestamp and expiry
timestamp; with no pending request the poll returns the empty result. -/
theorem handle_poll_spec :
    ∀ (m : RMap) (now : Int) (u : Nat) (d : String),
      (∀ r, (get_pending m now d).1 = some r → r.user_id ≠ u →
        (handle_poll m now u d).1 = .forbidden) ∧
      (∀ r, (get_pending m now d).1 = some r → r.user_id = u →
        (handle_poll m now u d).1 =
          .ok (some { request_id := r.id, requested_at := r.requested_at, expires_at := r.expires_at })) ∧
      ((get_pending m now d).1 = none → (handle_poll m now u d).1 = .ok none) := by
  intro m now u d
  refine ⟨?_, ?_, ?_⟩
  · intro r h hu
    rw [handle_poll_eq_of_pending m now u d r h, if_pos hu]
  · intro r h hu
    rw [handle_poll_eq_of_pending m now u d r h, if_neg (fun hh => hh hu)]
  · intro h
    rw [handle_poll_eq_of_none m now u d h]

/-- Witness for C9: owner poll returns the descriptor, foreign poll is
forbidden, both on a concrete map. -/
theorem handle_poll_spec_witness :
    (handle_poll sampleMap 50 7 "dev-A").1 =
      PollResult.ok (some { request_id := 1, requested_at := 0, expires_at := 86400 }) ∧
    (handle_poll sampleMap 50 9 "dev-A").1 = PollResult.forbidden :=
  ⟨(handle_poll_spec sampleMap 50 7 "dev-A").2.1 sampleReq (by decide) (by decide),
   (handle_poll_spec sampleMap 50 9 "dev-A").1 sampleReq (by decide) (by decide)⟩

theorem find?_eq_of_unique {α : Type} (p : α → Bool) (l : List α) (a : α)
    (ha : a ∈ l) (hpa : p a = true) (huniq : ∀ b ∈ l, p b = true → b = a) :
    l.find? p = some a := by
  induction l with
  | nil => cases ha
  | cons x l ih =>
    by_cases hx : p x = true
    · rw [List.find?_cons_of_pos _ hx]
      exact congrArg some (huniq x (List.mem_cons_self x l) hx)
    · rw [List.find?_cons_of_neg _ (by simpa using hx)]
      have ha' : a ∈ l := by
        rcases List.mem_cons.mp ha with rfl | h
        · exact absurd hpa hx
        · exact h
      exact ih ha' (fun b hb hpb => huniq b (List.mem_cons_of_mem x hb) hpb)

theorem handle_upload_eq_of_pending (m : RMap) (now : Int) (u rid : Nat)
    (d : String) (ok : Bool) (r : LogRequest)
    (h : (get_pending m now d).1 = some r) :
    handle_upload m now u (some rid) d ok =
      if r.id ≠ rid then (.badRequestMismatch, (get_pending m now d).2)
      else if r.user_id ≠ u then (.forbidden, (get_pending m now d).2)
      else if ok then
        match fulfill (get_pending m now d).2 now rid (uploadPath u d rid) with
        | .error _ => (.serverErrorFulfill, (get_pending m now d).2)
        | .ok m2 => (.created, m2)
      else (.serverErrorStorage, (get_pending m now d).2) := by
  unfold handle_upload
  dsimp only
  rw [h]

theorem handle_upload_eq_of_none (m : RMap) (now : Int) (u rid : Nat)
    (d : String) (ok : Bool) (h : (get_pending m now d).1 = none) :
    handle_upload m now u (some rid) d ok = (.notFound, (get_pending m now d).2) := by
  unfold handle_upload
  dsimp only
  rw [h]

/-- C1: `handle_upload` re-reads the device's pending request and rejects
with bad-request on id mismatch; with forbidden on ownership mismatch,
leaving the request Pending; with not-found when nothing is pending; and
applies the transition to Fulfilled only when persistence succeeds — on
persistence failure the state is unchanged and the request stays Pending,
while on success the request is fulfilled with the stamped path. -/
theorem handle_upload_spec :
    ∀ (m : RMap) (now : Int) (u rid : Nat) (d : String) (ok : Bool),
      (∀ r, (get_pending m now d).1 = some r → r.id ≠ rid →
        (handle_upload m now u (some rid) d ok).1 = .badRequestMismatch) ∧
      (∀ r, (get_pending m now d).1 = some r → r.id = rid → r.user_id ≠ u →
        handle_upload m now u (some rid) d ok = (.forbidden, m) ∧
        getReq m d = some r ∧ r.status = .Pending) ∧
      ((get_pending m now d).1 = none →
        (handle_upload m now u (some rid) d ok).1 = .notFound) ∧
      (∀ r, (get_pending m now d).1 = some r → r.id = rid → r.user_id = u →
          ok = false →
        handle_upload m now u (some rid) d ok = (.serverErrorStorage, m) ∧
        getReq m d = some r ∧ r.status = .Pending) ∧
      (∀ r, WFMap m → (∀ p ∈ m, p.2.id = rid → p.1 = d) →
          (get_pending m now d).1 = some r → r.id = rid → r.user_id = u →
          ok = true →
        (handle_upload m now u (some rid) d ok).1 = .created ∧
        getReq (handle_upload m now u (some rid) d ok).2 d =
          some { r with status := .Fulfilled, fulfilled_at := some now, log_file_path := some (uploadPath u d rid) }) := by
  intro m now u rid d ok
  refine ⟨?_, ?_, ?_, ?_, ?_⟩
  · intro r h hne
    rw [handle_upload_eq_of_pending m now u rid d ok r h, if_pos hne]
  · intro r h hid hu
    have hsnd := get_pending_snd_of_some m now d r h
    have hchar := (get_pending_fst_some m now d r).mp h
    rw [handle_upload_eq_of_pending m now u rid d ok r h,
      if_neg (fun hh => hh hid), if_pos hu, hsnd]
    exact ⟨rfl, hchar.1, hchar.2.1⟩
  · intro h
    rw [handle_upload_eq_of_none m now u rid d ok h]
  · intro r h hid hu hok
    have hsnd := get_pending_snd_of_some m now d r h
    have hchar := (get_pending_fst_some m now d r).mp h
    subst hok
    rw [handle_upload_eq_of_pending m now u rid d false r h,
      if_neg (fun hh => hh hid), if_neg (fun hh => hh hu), if_neg (by simp), hsnd]
    exact ⟨rfl, hchar.1, hchar.2.1⟩
  · intro r hwf huniq h hid hu hok
    have hsnd := get_pending_snd_of_some m now d r h
    have hchar := (get_pending_fst_some m now d r).mp h
    have hmem : (d, r) ∈ m := mem_of_getReq m d r hchar.1
    have hfind : m.find? (fun p => p.2.id == rid) = some (d, r) := by
      apply find?_eq_of_unique _ m (d, r) hmem (by simpa using hid)
      intro b hb hpb
      have hbd : b.1 = d := huniq b hb (by simpa using hpb)
      have : getReq m d = some b.2 := getReq_mem m d b.2 hwf (by rw [← hbd]; exact hb)
      have hb2 : b.2 = r := by
        rw [hchar.1] at this
        injection this with hh
        exact hh.symm
      calc b = (b.1, b.2) := rfl
        _ = (d, r) := by rw [hbd, hb2]
    have hful : fulfill m now rid (uploadPath u d rid) =
        .ok (insertReq m d { r with status := .Fulfilled, fulfilled_at := some now, log_file_path := some (uploadPath u d rid) }) := by
      rw [fulfill_eq_of_find m now rid (uploadPath u d rid) d r r hfind hchar.1,
        if_neg (fun hh => hh hchar.2.1)]
    subst hok
    rw [handle_upload_eq_of_pending m now u rid d true r h,
      if_neg (fun hh => hh hid), if_neg (fun hh => hh hu), if_pos rfl, hsnd, hful]
    exact ⟨rfl, getReq_insertReq_self ..⟩

/-- Witness for C1: on a concrete map, a foreign-user upload is forbidden
and leaves the request Pending, and an owner upload with successful
persistence is created and fulfilled. -/
theorem handle_upload_spec_witness :
    (handle_upload sampleMap 50 9 (some 1) "dev-A" true = (.forbidden, sampleMap) ∧
      getReq sampleMap "dev-A" = some sampleReq ∧ sampleReq.status = .Pending) ∧
    ((handle_upload sampleMap 50 7 (some 1) "dev-A" true).1 = .created ∧
      getReq (handle_upload sampleMap 50 7 (some 1) "dev-A" true).2 "dev-A" =
        some { sampleReq with status := .Fulfilled, fulfilled_at := some 50, log_file_path := some (uploadPath 7 "dev-A" 1) }) :=
  ⟨(handle_upload_spec sampleMap 50 9 1 "dev-A" true).2.1 sampleReq (by decide)
      (by decide) (by decide),
   (handle_upload_spec sampleMap 50 7 1 "dev-A" true).2.2.2.2 sampleReq (by decide)
      (by decide) (by decide) (by decide) (by decide) rfl⟩

/-! ## Severity levels -/

theorem char_toNat_ofNat_valid (n : Nat) (h : n < 55296) : (Char.ofNat n).toNat = n := by
  have hv : n.isValidChar := Or.inl h
  rw [Char.ofNat, dif_pos hv]
  simp [Char.toNat, Char.ofNatAux, UInt32.toNat, BitVec.toNat_ofNatLt]

theorem toNat_asciiLower (c : Char) :
    (asciiLower c).toNat =
      if 65 ≤ c.toNat ∧ c.toNat ≤ 90 then c.toNat + 32 else c.toNat := by
  unfold asciiLower
  by_cases h : 65 ≤ c.toNat ∧ c.toNat ≤ 90
  · rw [if_pos h, if_pos h, char_toNat_ofNat_valid _ (by omega)]
  · rw [if_neg h, if_neg h]

theorem asciiLower_idem (c : Char) : asciiLower (asciiLower c) = asciiLower c := by
  have ht := toNat_asciiLower c
  rw [show asciiLower (asciiLower c)
      = (if 65 ≤ (asciiLower c).toNat ∧ (asciiLower c).toNat ≤ 90
         then Char.ofNat ((asciiLower c).toNat + 32) else asciiLower c) from rfl, ht]
  by_cases h : 65 ≤ c.toNat ∧ c.toNat ≤ 90
  · rw [if_pos h] at ht ⊢
    rw [if_neg (by omega)]
  · rw [if_neg h] at ht ⊢
    rw [if_neg h]

theorem toLowercase_idem (s : List Char) :
    toLowercase (toLowercase s) = toLowercase s := by
  unfold toLowercase
  rw [List.map_map]
  exact List.map_congr_left (fun c _ => asciiLower_idem c)

/-- C10: severity parsing is total and case-insensitive
(`from_str s = from_str (lowercase s)`), strings outside the seven known
names map to the Info rank, `from_str` inverts `as_str`, and the derived
order ranks trace < debug < info < notice < warning < error < critical. -/
theorem logLevel_from_str_spec :
    (∀ s : List Char, LogLevel.from_str s = LogLevel.from_str (toLowercase s)) ∧
    (∀ s : List Char,
      toLowercase s ∉ ["trace".toList, "debug".toList, "info".toList,
        "notice".toList, "warning".toList, "error".toList, "critical".toList] →
      LogLevel.from_str s = .Info) ∧
    (∀ l : LogLevel, LogLevel.from_str l.as_str = l) ∧
    (LogLevel.Trace.rank < LogLevel.Debug.rank ∧
     LogLevel.Debug.rank < LogLevel.Info.rank ∧
     LogLevel.Info.rank < LogLevel.Notice.rank ∧
     LogLevel.Notice.rank < LogLevel.Warning.rank ∧
     LogLevel.Warning.rank < LogLevel.Error.rank ∧
     LogLevel.Error.rank < LogLevel.Critical.rank) := by
  refine ⟨?_, ?_, ?_, by decide⟩
  · intro s
    unfold LogLevel.from_str
    rw [toLowercase_idem]
  · intro s h
    obtain ⟨h1, h2, h3, h4, h5, h6, h7⟩ :
        ¬toLowercase s = "trace".toList ∧ ¬toLowercase s = "debug".toList ∧
        ¬toLowercase s = "info".toList ∧ ¬toLowercase s = "notice".toList ∧
        ¬toLowercase s = "warning".toList ∧ ¬toLowercase s = "error".toList ∧
        ¬toLowercase s = "critical".toList := by simpa using h
    unfold LogLevel.from_str
    rw [if_neg h1, if_neg h2, if_neg h3, if_neg h4, if_neg h5, if_neg h6, if_neg h7]
  · intro l
    cases l <;> decide

/-- Witness for C10: case-insensitivity on "TRACE" and the Info default on
an unknown name, at concrete inputs. -/
theorem logLevel_from_str_spec_witness :
    LogLevel.from_str "TRACE".toList = LogLevel.from_str (toLowercase "TRACE".toList) ∧
    LogLevel.from_str "bogus".toList = LogLevel.Info :=
  ⟨logLevel_from_str_spec.1 "TRACE".toList,
   logLevel_from_str_spec.2.1 "bogus".toList (by decide)⟩

/-! ## Buffer -/

/-- A concrete log entry with the given id (all other fields fixed). -/
def sampleEntry (i : String) : LogEntry :=
  { id := i
    timestamp := 0
    level := "info"
    message := "m"
    user_id := none
    device_id := "dev-A"
    source := "test"
    metadata := []
    tags := []
    file := ""
    function := ""
    line := 0 }

theorem LogBuffer.WF_new (N : Nat) : LogBuffer.WF (LogBuffer.new N) :=
  ⟨rfl, Nat.zero_le N, fun _ => rfl, fun h => h⟩

theorem LogBuffer.get_all_length (b : BufferInner) (h : LogBuffer.WF b) :
    (LogBuffer.get_all b).length = b.count := by
  unfold LogBuffer.get_all
  by_cases hlt : b.count < b.capacity
  · rw [if_pos hlt, ← h.1]
  · rw [if_neg hlt]
    have h1 := h.1
    rcases Nat.eq_zero_or_pos b.capacity with h0 | hpos
    · have hc0 : b.count = 0 := by have := h.2.1; omega
      have hlen : b.entries.length = 0 := by omega
      rw [List.eq_nil_of_length_eq_zero hlen]
      simp [hc0]
    · have hs : b.start_index < b.entries.length := by
        have hsc := h.2.2.2 hpos
        have := h.2.1
        omega
      simp only [List.length_append, List.length_drop, List.length_take]
      omega

theorem LogBuffer.append_spec (b : BufferInner) (e : LogEntry)
    (hwf : LogBuffer.WF b) (hc : 0 < b.capacity) :
    ∃ b', LogBuffer.append b e = some b' ∧ LogBuffer.WF b' ∧
      b'.capacity = b.capacity ∧
      LogBuffer.get_all b' =
        (LogBuffer.get_all b ++ [e]).drop
          ((LogBuffer.get_all b).length + 1 - b.capacity) := by
  obtain ⟨h1, h2, h3, h4⟩ := hwf
  by_cases hlt : b.count < b.capacity
  · have hstart : b.start_index = 0 := h3 hlt
    refine ⟨{ b with entries := b.entries ++ [e], count := b.count + 1 },
      by rw [LogBuffer.append, if_pos hlt], ?_, rfl, ?_⟩
    · refine ⟨?_, ?_, ?_, ?_⟩
      · show b.count + 1 = (b.entries ++ [e]).length
        simp [h1]
      · show b.count + 1 ≤ b.capacity
        omega
      · intro _
        show b.start_index = 0
        exact hstart
      · intro _
        show b.start_index < b.capacity
        omega
    · have hga : LogBuffer.get_all b = b.entries := by
        rw [LogBuffer.get_all, if_pos hlt]
      have hidx : (LogBuffer.get_all b).length + 1 - b.capacity = 0 := by
        rw [hga, ← h1]; omega
      rw [hidx, List.drop_zero, hga]
      unfold LogBuffer.get_all
      dsimp only
      by_cases hlt2 : b.count + 1 < b.capacity
      · rw [if_pos hlt2]
      · rw [if_neg hlt2, hstart]
        simp
  · have hcnt : b.count = b.capacity := Nat.le_antisymm h2 (Nat.le_of_not_lt hlt)
    have hs : b.start_index < b.entries.length := by
      have := h4 hc; omega
    refine ⟨{ b with entries := b.entries.set b.start_index e, start_index := (b.start_index + 1) % b.capacity },
      by rw [LogBuffer.append, if_neg hlt, if_pos ⟨hs, hc⟩], ?_, rfl, ?_⟩
    · refine ⟨?_, ?_, ?_, ?_⟩
      · show b.count = (b.entries.set b.start_index e).length
        simp [h1]
      · show b.count ≤ b.capacity
        exact h2
      · intro hcl
        exact absurd (show b.count < b.capacity from hcl) hlt
      · intro _
        show (b.start_index + 1) % b.capacity < b.capacity
        exact Nat.mod_lt _ hc
    · have hga : LogBuffer.get_all b
          = b.entries.drop b.start_index ++ b.entries.take b.start_index := by
        rw [LogBuffer.get_all, if_neg hlt]
      have hidx : (LogBuffer.get_all b).length + 1 - b.capacity = 1 := by
        rw [hga]
        simp only [List.length_append, List.length_drop, List.length_take]
        omega
      rw [hidx, hga]
      have hset : b.entries.set b.start_index e
          = (b.entries.take b.start_index ++ [e]) ++ b.entries.drop (b.start_index + 1) := by
        rw [List.set_eq_take_append_cons_drop, if_pos hs]
        simp
      have hdropcons : b.entries.drop b.start_index
          = b.entries[b.start_index] :: b.entries.drop (b.start_index + 1) :=
        List.drop_eq_getElem_cons hs
      have hrhs : ((b.entries.drop b.start_index ++ b.entries.take b.start_index) ++ [e]).drop 1
          = b.entries.drop (b.start_index + 1) ++ b.entries.take b.start_index ++ [e] := by
        rw [hdropcons]
        rfl
      rw [hrhs]
      unfold LogBuffer.get_all
      dsimp only
      rw [if_neg hlt]
      have hlenA : (b.entries.take b.start_index ++ [e]).length = b.start_index + 1 := by
        simp only [List.length_append, List.length_take, List.length_singleton]
        omega
      by_cases hss : b.start_index + 1 < b.capacity
      · rw [Nat.mod_eq_of_lt hss, hset,
          List.drop_left' hlenA, List.take_left' hlenA]
        simp
      · have hse : b.start_index + 1 = b.capacity := by omega
        rw [hse, Nat.mod_self, List.drop_zero, List.take_zero, List.append_nil, hset]
        have hB : b.entries.drop (b.start_index + 1) = [] := by
          rw [show b.start_index + 1 = b.entries.length by omega]
          exact List.drop_length b.entries
        rw [hB]
        simp
        omega

theorem LogBuffer.appendAll_spec (es : List LogEntry) :
    ∀ (b : BufferInner), LogBuffer.WF b → 0 < b.capacity →
      ∃ b', LogBuffer.appendAll b es = some b' ∧ LogBuffer.WF b' ∧
        b'.capacity = b.capacity ∧
        LogBuffer.get_all b' =
          (LogBuffer.get_all b ++ es).drop
            ((LogBuffer.get_all b).length + es.length - b.capacity) := by
  induction es with
  | nil =>
    intro b hwf hc
    refine ⟨b, rfl, hwf, rfl, ?_⟩
    have hL : (LogBuffer.get_all b).length ≤ b.capacity := by
      rw [LogBuffer.get_all_length b hwf]; exact hwf.2.1
    rw [List.append_nil, List.length_nil,
      show (LogBuffer.get_all b).length + 0 - b.capacity = 0 by omega, List.drop_zero]
  | cons e rest ih =>
    intro b hwf hc
    obtain ⟨b₁, hb₁, hwf₁, hcap₁, hga₁⟩ := LogBuffer.append_spec b e hwf hc
    obtain ⟨b₂, hb₂, hwf₂, hcap₂, hga₂⟩ := ih b₁ hwf₁ (by rw [hcap₁]; exact hc)
    have hL : (LogBuffer.get_all b).length ≤ b.capacity := by
      rw [LogBuffer.get_all_length b hwf]; exact hwf.2.1
    refine ⟨b₂, ?_, hwf₂, by rw [hcap₂, hcap₁], ?_⟩
    · rw [LogBuffer.appendAll, List.foldlM_cons, hb₁]
      exact hb₂
    · rw [hga₂, hga₁, hcap₁]
      have hk : (LogBuffer.get_all b).length + 1 - b.capacity
          ≤ (LogBuffer.get_all b ++ [e]).length := by
        simp only [List.length_append, List.length_singleton]
        omega
      rw [← List.drop_append_of_le_length hk, List.drop_drop, List.length_drop]
      rw [show LogBuffer.get_all b ++ e :: rest = (LogBuffer.get_all b ++ [e]) ++ rest by simp]
      have ha : (LogBuffer.get_all b ++ [e]).length = (LogBuffer.get_all b).length + 1 := by
        simp
      congr 1
      simp only [List.length_append, List.length_singleton, List.length_cons,
        List.length_nil]
      omega

/-- C2: for every capacity `N ≥ 1` and every sequence of appends starting
from a fresh buffer, no append fails, `get_all` returns exactly the last
`min(|es|, N)` entries in receipt order (so its length never exceeds `N`),
and for `N + 1` appended entries the first is evicted, leaving entries
2..N+1 in order. -/
theorem buffer_append_get_all_spec :
    ∀ (N : Nat) (es : List LogEntry), 1 ≤ N →
      ∃ b, LogBuffer.appendAll (LogBuffer.new N) es = some b ∧
        LogBuffer.get_all b = es.drop (es.length - N) ∧
        (LogBuffer.get_all b).length ≤ N ∧
        (es.length = N + 1 → LogBuffer.get_all b = es.drop 1) := by
  intro N es hN
  obtain ⟨b, hb, hwf, hcap, hga⟩ :=
    LogBuffer.appendAll_spec es (LogBuffer.new N) (LogBuffer.WF_new N) hN
  have hganew : LogBuffer.get_all (LogBuffer.new N) = [] := by
    rw [LogBuffer.get_all,
      if_pos (show (LogBuffer.new N).count < (LogBuffer.new N).capacity from hN)]
    rfl
  have hcapnew : (LogBuffer.new N).capacity = N := rfl
  rw [hganew, hcapnew] at hga
  simp only [List.nil_append, List.length_nil, Nat.zero_add] at hga
  refine ⟨b, hb, hga, ?_, ?_⟩
  · rw [hga, List.length_drop]
    omega
  · intro hlen
    rw [hga]
    congr 1
    omega

/-- Witness for C2: capacity 2, three appends; the buffer holds entries 2
and 3 in order. -/
theorem buffer_append_get_all_spec_witness :
    ∃ b, LogBuffer.appendAll (LogBuffer.new 2)
        [sampleEntry "1", sampleEntry "2", sampleEntry "3"] = some b ∧
      LogBuffer.get_all b =
        ([sampleEntry "1", sampleEntry "2", sampleEntry "3"] : List LogEntry).drop
          (([sampleEntry "1", sampleEntry "2", sampleEntry "3"] : List LogEntry).length - 2) ∧
      (LogBuffer.get_all b).length ≤ 2 ∧
      (([sampleEntry "1", sampleEntry "2", sampleEntry "3"] : List LogEntry).length = 2 + 1 →
        LogBuffer.get_all b =
          ([sampleEntry "1", sampleEntry "2", sampleEntry "3"] : List LogEntry).drop 1) :=
  buffer_append_get_all_spec 2 [sampleEntry "1", sampleEntry "2", sampleEntry "3"]
    (by decide)

/-- C8 (amended): on every well-formed buffer with capacity at least 1,
`append` always succeeds — there is no error path for a full buffer, the
oldest entry is evicted instead. -/
theorem append_total_spec :
    ∀ (b : BufferInner) (e : LogEntry), LogBuffer.WF b → 1 ≤ b.capacity →
      ∃ b', LogBuffer.append b e = some b' ∧ LogBuffer.WF b' ∧
        LogBuffer.get_all b' =
          (LogBuffer.get_all b ++ [e]).drop
            ((LogBuffer.get_all b).length + 1 - b.capacity) := by
  intro b e hwf hc
  obtain ⟨b', hb, hwf', _, hga⟩ := LogBuffer.append_spec b e hwf hc
  exact ⟨b', hb, hwf', hga⟩

/-- Witness for C8: an append on a fresh capacity-1 buffer succeeds. -/
theorem append_total_spec_witness :
    ∃ b', LogBuffer.append (LogBuffer.new 1) (sampleEntry "1") = some b' ∧
      LogBuffer.WF b' ∧
      LogBuffer.get_all b' =
        (LogBuffer.get_all (LogBuffer.new 1) ++ [sampleEntry "1"]).drop
          ((LogBuffer.get_all (LogBuffer.new 1)).length + 1 - (LogBuffer.new 1).capacity) :=
  append_total_spec (LogBuffer.new 1) (sampleEntry "1") (LogBuffer.WF_new 1)
    (Nat.le_refl 1)

/-- Counterexample for C8 as stated: on a buffer of capacity 0 the very
first `append` hits the out-of-bounds write `entries[0]` and panics
(modelled as `none`) — ingestion does not "always succeed for any
capacity including 0". -/
theorem append_capacity_zero_counterexample :
    LogBuffer.append (LogBuffer.new 0) (sampleEntry "1") = none := by
  rfl

/-! ## Lifecycle operations and terminal-state immutability -/

theorem get_pending_of_getReq_none (m : RMap) (now : Int) (d : String)
    (hg : getReq m d = none) : get_pending m now d = (none, m) := by
  unfold get_pending
  rw [hg]

theorem fulfill_ok (m : RMap) (now : Int) (rid : Nat) (path : String) (m' : RMap)
    (h : fulfill m now rid path = .ok m') :
    ∃ d r, getReq m d = some r ∧ r.status = .Pending ∧
      m' = insertReq m d { r with status := .Fulfilled, fulfilled_at := some now, log_file_path := some path } := by
  unfold fulfill at h
  cases hfind : m.find? (fun p => p.2.id == rid) with
  | none => rw [hfind] at h; cases h
  | some p =>
    obtain ⟨d0, r0⟩ := p
    rw [hfind] at h
    dsimp only at h
    cases hget : getReq m d0 with
    | none => rw [hget] at h; cases h
    | some r =>
      rw [hget] at h
      dsimp only at h
      by_cases hst : r.status ≠ LogRequestStatus.Pending
      · rw [if_pos hst] at h; cases h
      · rw [if_neg hst] at h
        injection h with h
        exact ⟨d0, r, hget, not_not.mp hst, h.symm⟩

theorem cancel_ok (m : RMap) (d : String) (m' : RMap)
    (h : cancel m d = .ok m') :
    ∃ r, getReq m d = some r ∧ r.status = .Pending ∧
      m' = insertReq m d { r with status := .Cancelled } := by
  unfold cancel at h
  cases hget : getReq m d with
  | none => rw [hget] at h; cases h
  | some r =>
    rw [hget] at h
    dsimp only at h
    by_cases hst : r.status ≠ LogRequestStatus.Pending
    · rw [if_pos hst] at h; cases h
    · rw [if_neg hst] at h
      injection h with h
      exact ⟨r, rfl, not_not.mp hst, h.symm⟩

/-- One lifecycle operation of the request manager, for reasoning about
arbitrary operation sequences (C7).  `Uuid::new_v4()` and `Utc::now()`
oracle outputs are carried in the constructors. -/
inductive Op
  | create (newId : Nat) (now : Int) (uid : Nat) (d : String)
  | getp (now : Int) (d : String)
  | fulfillOp (now : Int) (rid : Nat) (path : String)
  | cancelOp (d : String)
  | cleanup (now : Int)
deriving DecidableEq, Repr

/-- The map after one lifecycle operation (failed operations leave the map
unchanged, matching the source's early returns). -/
def step (m : RMap) : Op → RMap
  | .create newId now uid d => (create_request m newId now uid d).2
  | .getp now d => (get_pending m now d).2
  | .fulfillOp now rid path =>
    match fulfill m now rid path with
    | .ok m' => m'
    | .error _ => m
  | .cancelOp d =>
    match cancel m d with
    | .ok m' => m'
    | .error _ => m
  | .cleanup now => (cleanup_expired m now).2

/-- The map after a sequence of lifecycle operations. -/
def steps (m : RMap) : List Op → RMap
  | [] => m
  | op :: ops => steps (step m op) ops

theorem WFMap_cleanup_snd (m : RMap) (now : Int) (h : WFMap m) :
    WFMap (cleanup_expired m now).2 := by
  have hsub : List.Sublist
      (((m.map (fun p => (p.1, markExpired now p.2))).filter
        (fun p => keepAfterSweep now p.2)).map Prod.fst)
      ((m.map (fun p => (p.1, markExpired now p.2))).map Prod.fst) :=
    List.Sublist.map Prod.fst (List.filter_sublist _)
  have heq : ((m.map (fun p => (p.1, markExpired now p.2))).map Prod.fst)
      = m.map Prod.fst := by
    rw [List.map_map]
    rfl
  rw [heq] at hsub
  exact h.sublist hsub

theorem WFMap_step (m : RMap) (op : Op) (h : WFMap m) : WFMap (step m op) := by
  cases op with
  | create i t u d => exact WFMap_insertReq _ _ _ h
  | getp t d =>
    cases hg : getReq m d with
    | none =>
      rw [show step m (.getp t d) = (get_pending m t d).2 from rfl,
        get_pending_of_getReq_none m t d hg]
      exact h
    | some r =>
      rw [show step m (.getp t d) = (get_pending m t d).2 from rfl,
        get_pending_of_getReq_some m t d r hg]
      split_ifs with h1 h2
      · exact WFMap_insertReq _ _ _ h
      · exact h
      · exact h
  | fulfillOp t rid path =>
    cases hf : fulfill m t rid path with
    | error e =>
      rw [show step m (.fulfillOp t rid path)
        = (match fulfill m t rid path with | .ok m' => m' | .error _ => m) from rfl, hf]
      exact h
    | ok m2 =>
      obtain ⟨d0, r0, _, _, hm2⟩ := fulfill_ok m t rid path m2 hf
      rw [show step m (.fulfillOp t rid path)
        = (match fulfill m t rid path with | .ok m' => m' | .error _ => m) from rfl, hf]
      rw [hm2]
      exact WFMap_insertReq _ _ _ h
  | cancelOp d =>
    cases hf : cancel m d with
    | error e =>
      rw [show step m (.cancelOp d)
        = (match cancel m d with | .ok m' => m' | .error _ => m) from rfl, hf]
      exact h
    | ok m2 =>
      obtain ⟨r0, _, _, hm2⟩ := cancel_ok m d m2 hf
      rw [show step m (.cancelOp d)
        = (match cancel m d with | .ok m' => m' | .error _ => m) from rfl, hf]
      rw [hm2]
      exact WFMap_insertReq _ _ _ h
  | cleanup t => exact WFMap_cleanup_snd m t h

theorem step_lookup_cases (m : RMap) (op : Op) (d : String) (hwf : WFMap m) :
    ∀ v', getReq (step m op) d = some v' →
      (∃ v, getReq m d = some v ∧ v'.id = v.id ∧ (v.status ≠ .Pending → v' = v)) ∨
      (∃ i t u, op = .create i t u d ∧ v' = mkLogRequest i u d t) := by
  intro v' h
  cases op with
  | create i t u d0 =>
    rw [show step m (.create i t u d0) = insertReq m d0 (mkLogRequest i u d0 t) from rfl] at h
    by_cases hd : d0 = d
    · subst hd
      rw [getReq_insertReq_self] at h
      injection h with h
      exact Or.inr ⟨i, t, u, rfl, h.symm⟩
    · rw [getReq_insertReq_ne m d0 d _ (fun hh => hd hh.symm)] at h
      exact Or.inl ⟨v', h, rfl, fun _ => rfl⟩
  | getp t d0 =>
    rw [show step m (.getp t d0) = (get_pending m t d0).2 from rfl] at h
    cases hg : getReq m d0 with
    | none =>
      rw [get_pending_of_getReq_none m t d0 hg] at h
      exact Or.inl ⟨v', h, rfl, fun _ => rfl⟩
    | some r =>
      rw [get_pending_of_getReq_some m t d0 r hg] at h
      by_cases hcond : r.status = LogRequestStatus.Pending ∧ t > r.expires_at
      · rw [if_pos hcond] at h
        dsimp only at h
        by_cases hd : d0 = d
        · subst hd
          rw [getReq_insertReq_self] at h
          injection h with h
          refine Or.inl ⟨r, hg, by rw [← h], fun hnp => absurd hcond.1 hnp⟩
        · rw [getReq_insertReq_ne m d0 d _ (fun hh => hd hh.symm)] at h
          exact Or.inl ⟨v', h, rfl, fun _ => rfl⟩
      · rw [if_neg hcond] at h
        by_cases hp : r.status = LogRequestStatus.Pending
        · rw [if_pos hp] at h
          exact Or.inl ⟨v', h, rfl, fun _ => rfl⟩
        · rw [if_neg hp] at h
          exact Or.inl ⟨v', h, rfl, fun _ => rfl⟩
  | fulfillOp t rid path =>
    rw [show step m (.fulfillOp t rid path)
      = (match fulfill m t rid path with | .ok m2 => m2 | .error _ => m) from rfl] at h
    cases hf : fulfill m t rid path with
    | error e =>
      rw [hf] at h
      exact Or.inl ⟨v', h, rfl, fun _ => rfl⟩
    | ok m2 =>
      obtain ⟨d0, r0, hg0, hp0, hm2⟩ := fulfill_ok m t rid path m2 hf
      rw [hf] at h
      dsimp only at h
      rw [hm2] at h
      by_cases hd : d0 = d
      · subst hd
        rw [getReq_insertReq_self] at h
        injection h with h
        exact Or.inl ⟨r0, hg0, by rw [← h], fun hnp => absurd hp0 hnp⟩
      · rw [getReq_insertReq_ne m d0 d _ (fun hh => hd hh.symm)] at h
        exact Or.inl ⟨v', h, rfl, fun _ => rfl⟩
  | cancelOp d0 =>
    rw [show step m (.cancelOp d0)
      = (match cancel m d0 with | .ok m2 => m2 | .error _ => m) from rfl] at h
    cases hf : cancel m d0 with
    | error e =>
      rw [hf] at h
      exact Or.inl ⟨v', h, rfl, fun _ => rfl⟩
    | ok m2 =>
      obtain ⟨r0, hg0, hp0, hm2⟩ := cancel_ok m d0 m2 hf
      rw [hf] at h
      dsimp only at h
      rw [hm2] at h
      by_cases hd : d0 = d
      · subst hd
        rw [getReq_insertReq_self] at h
        injection h with h
        exact Or.inl ⟨r0, hg0, by rw [← h], fun hnp => absurd hp0 hnp⟩
      · rw [getReq_insertReq_ne m d0 d _ (fun hh => hd hh.symm)] at h
        exact Or.inl ⟨v', h, rfl, fun _ => rfl⟩
  | cleanup t =>
    rw [show step m (.cleanup t) = (cleanup_expired m t).2 from rfl,
      getReq_cleanup m t d hwf] at h
    cases hg : getReq m d with
    | none => rw [hg] at h; cases h
    | some r =>
      rw [hg, Option.some_bind] at h
      by_cases hk : keepAfterSweep t (markExpired t r) = true
      · rw [if_pos hk] at h
        injection h with h
        refine Or.inl ⟨r, rfl, ?_, ?_⟩
        · rw [← h]
          unfold markExpired
          split_ifs <;> rfl
        · intro hnp
          rw [← h]
          unfold markExpired
          rw [if_neg (fun hh => hnp hh.1)]
      · rw [if_neg hk] at h
        cases h

theorem steps_no_id (ops : List Op) :
    ∀ (m : RMap) (d : String) (rid : Nat), WFMap m →
      (∀ v, getReq m d = some v → v.id ≠ rid) →
      (∀ i t u d0, Op.create i t u d0 ∈ ops → i ≠ rid) →
      ∀ r', getReq (steps m ops) d = some r' → r'.id ≠ rid := by
  induction ops with
  | nil =>
    intro m d rid _ hnone _ r' h
    exact hnone r' h
  | cons op ops ih =>
    intro m d rid hwf hnone hfresh r' h
    rw [show steps m (op :: ops) = steps (step m op) ops from rfl] at h
    refine ih (step m op) d rid (WFMap_step m op hwf) ?_
      (fun i t u d0 hmem => hfresh i t u d0 (List.mem_cons_of_mem op hmem)) r' h
    intro v hv
    rcases step_lookup_cases m op d hwf v hv with ⟨w, hw, hid, _⟩ | ⟨i, t, u, hop, hvmk⟩
    · rw [hid]
      exact hnone w hw
    · rw [hvmk]
      exact hfresh i t u d (hop ▸ List.mem_cons_self op ops)

theorem step_terminal_cases (m : RMap) (op : Op) (d : String) (r : LogRequest)
    (hwf : WFMap m) (hg : getReq m d = some r) (hterm : r.status ≠ .Pending) :
    getReq (step m op) d = some r ∨
    (getReq (step m op) d = none ∧ ∃ t, op = .cleanup t) ∨
    (∃ i t u, op = .create i t u d ∧ getReq (step m op) d = some (mkLogRequest i u d t)) := by
  cases op with
  | create i t u d0 =>
    rw [show step m (.create i t u d0) = insertReq m d0 (mkLogRequest i u d0 t) from rfl]
    by_cases hd : d0 = d
    · subst hd
      exact Or.inr (Or.inr ⟨i, t, u, rfl, getReq_insertReq_self ..⟩)
    · rw [getReq_insertReq_ne m d0 d _ (fun hh => hd hh.symm)]
      exact Or.inl hg
  | getp t d0 =>
    rw [show step m (.getp t d0) = (get_pending m t d0).2 from rfl]
    by_cases hd : d0 = d
    · subst hd
      rw [get_pending_of_getReq_some m t d0 r hg,
        if_neg (fun hh => hterm hh.1), if_neg (fun hh => hterm hh)]
      exact Or.inl hg
    · cases hg0 : getReq m d0 with
      | none =>
        rw [get_pending_of_getReq_none m t d0 hg0]
        exact Or.inl hg
      | some r0 =>
        rw [get_pending_of_getReq_some m t d0 r0 hg0]
        split_ifs
        · rw [show ((none, insertReq m d0 { r0 with status := LogRequestStatus.Expired }) :
              Option LogRequest × RMap).2 = insertReq m d0 { r0 with status := LogRequestStatus.Expired } from rfl,
            getReq_insertReq_ne m d0 d _ (fun hh => hd hh.symm)]
          exact Or.inl hg
        · exact Or.inl hg
        · exact Or.inl hg
  | fulfillOp t rid path =>
    rw [show step m (.fulfillOp t rid path)
      = (match fulfill m t rid path with | .ok m2 => m2 | .error _ => m) from rfl]
    cases hf : fulfill m t rid path with
    | error e => exact Or.inl hg
    | ok m2 =>
      obtain ⟨d0, r0, hg0, hp0, hm2⟩ := fulfill_ok m t rid path m2 hf
      have hd : d0 ≠ d := by
        intro hdd
        subst hdd
        rw [hg0] at hg
        injection hg with hg
        exact hterm (hg ▸ hp0)
      dsimp only
      rw [hm2, getReq_insertReq_ne m d0 d _ (fun hh => hd hh.symm)]
      exact Or.inl hg
  | cancelOp d0 =>
    rw [show step m (.cancelOp d0)
      = (match cancel m d0 with | .ok m2 => m2 | .error _ => m) from rfl]
    cases hf : cancel m d0 with
    | error e => exact Or.inl hg
    | ok m2 =>
      obtain ⟨r0, hg0, hp0, hm2⟩ := cancel_ok m d0 m2 hf
      have hd : d0 ≠ d := by
        intro hdd
        subst hdd
        rw [hg0] at hg
        injection hg with hg
        exact hterm (hg ▸ hp0)
      dsimp only
      rw [hm2, getReq_insertReq_ne m d0 d _ (fun hh => hd hh.symm)]
      exact Or.inl hg
  | cleanup t =>
    rw [show step m (.cleanup t) = (cleanup_expired m t).2 from rfl,
      getReq_cleanup m t d hwf, hg, Option.some_bind]
    have hm : markExpired t r = r := by
      unfold markExpired
      rw [if_neg (fun hh => hterm hh.1)]
    rw [hm]
    by_cases hk : keepAfterSweep t r = true
    · rw [if_pos hk]
      exact Or.inl rfl
    · rw [if_neg hk]
      exact Or.inr (Or.inl ⟨rfl, t, rfl⟩)

/-- C7: across every sequence of lifecycle operations, a request in a
terminal status (Fulfilled, Expired or Cancelled) never changes again —
any later entry under its device key carrying its id is the identical
record; and in a single step, the stored terminal entry is either left
intact, removed (only by the cleanup sweep), or replaced wholesale by a
freshly created Pending request (only by create). -/
theorem terminal_status_immutable :
    (∀ (ops : List Op) (m : RMap) (d : String) (r : LogRequest),
      WFMap m → getReq m d = some r → r.status ≠ .Pending →
      (∀ i t u d0, Op.create i t u d0 ∈ ops → i ≠ r.id) →
      ∀ r', getReq (steps m ops) d = some r' → r'.id = r.id → r' = r) ∧
    (∀ (m : RMap) (op : Op) (d : String) (r : LogRequest),
      WFMap m → getReq m d = some r → r.status ≠ .Pending →
      getReq (step m op) d = some r ∨
      (getReq (step m op) d = none ∧ ∃ t, op = .cleanup t) ∨
      (∃ i t u, op = .create i t u d ∧
        getReq (step m op) d = some (mkLogRequest i u d t))) := by
  constructor
  · intro ops
    induction ops with
    | nil =>
      intro m d r _ hg _ _ r' h _
      rw [show steps m [] = m from rfl] at h
      rw [hg] at h
      injection h with h
      exact h.symm
    | cons op ops ih =>
      intro m d r hwf hg hterm hfresh r' h hid
      rw [show steps m (op :: ops) = steps (step m op) ops from rfl] at h
      cases hstep : getReq (step m op) d with
      | none =>
        exfalso
        refine steps_no_id ops (step m op) d r.id (WFMap_step m op hwf) ?_
          (fun i t u d0 hmem => hfresh i t u d0 (List.mem_cons_of_mem op hmem)) r' h hid
        intro v hv
        rw [hstep] at hv
        cases hv
      | some v' =>
        rcases step_lookup_cases m op d hwf v' hstep with ⟨v, hv, hvid, himp⟩ |
          ⟨i, t, u, hop, hvmk⟩
        · have hvr : v = r := by
            rw [hg] at hv
            injection hv with hv
            exact hv.symm
          subst hvr
          have hv'r : v' = v := himp hterm
          subst hv'r
          exact ih (step m op) d v' (WFMap_step m op hwf) hstep hterm
            (fun i t u d0 hmem => hfresh i t u d0 (List.mem_cons_of_mem op hmem)) r' h hid
        · exfalso
          have hne : v'.id ≠ r.id := by
            rw [hvmk]
            exact hfresh i t u d (hop ▸ List.mem_cons_self op ops)
          refine steps_no_id ops (step m op) d r.id (WFMap_step m op hwf) ?_
            (fun i0 t0 u0 d0 hmem => hfresh i0 t0 u0 d0 (List.mem_cons_of_mem op hmem)) r' h hid
          intro v hv
          rw [hstep] at hv
          injection hv with hv
          exact hv ▸ hne
  · intro m op d r hwf hg hterm
    exact step_terminal_cases m op d r hwf hg hterm

/-- Witness for C7: a concrete Fulfilled entry survives a poll and a sweep
unchanged. -/
theorem terminal_status_immutable_witness :
    ({ sampleReq with status := LogRequestStatus.Fulfilled } : LogRequest)
      = { sampleReq with status := LogRequestStatus.Fulfilled } :=
  terminal_status_immutable.1 [Op.getp 5 "dev-A", Op.cleanup 5]
    [("dev-A", { sampleReq with status := LogRequestStatus.Fulfilled })] "dev-A"
    { sampleReq with status := LogRequestStatus.Fulfilled }
    (by decide) (by decide) (by decide)
    (by intro i t u d0 hmem; simp at hmem)
    { sampleReq with status := LogRequestStatus.Fulfilled } (by decide) (by decide)
